import Mathlib

/-!
# Verification of the sentence structural annotation engine

A shallow embedding of `structure_analyzer.py`, the sentence structural
annotation engine of the repository.  The Python module extracts candidate
syntactic spans with a pattern (regex) extractor, reconciles overlapping
spans under a priority policy (`_flatten_spans`), and materializes brackets
into the text (`_apply_brackets`), exposed through `analyze_structure`.

Modelling conventions:
* Strings are `List Char` (Python `str` indexing is by codepoint, matching
  list positions).  Machine integers are `Nat`/`Int`; the sort key of the
  resolver uses `Int` subtraction exactly where Python computes `-(end-start)`
  on possibly malformed spans.
* The regular expressions of the fallback extractor are embedded as
  deterministic matchers.  For these specific patterns, Python's
  greedy/backtracking semantics reduces to maximal-munch runs plus ordered
  alternation with a trailing word-boundary test, which is what the matchers
  implement.  Character classes follow Python's ASCII behaviour
  (`\w = [a-zA-Z0-9_]`, `\s = [ \t\n\r\x0b\x0c]`, `re.I` via `Char.toLower`).
* The dependency (spaCy) extractor is an external capability; the modelled
  environment is the documented fallback configuration (`_NLP = None`), in
  which `analyze_structure` always uses `_analyze_fallback`.
* The only operation in the executed path that can raise in Python is the
  string indexing `text[s]` inside the leading comma/space trimming loop of
  `_analyze_fallback`; it is modelled with `Option` (`none` = exception), and
  the `Option` is propagated to `analyzeStructure?`.
-/

namespace StructureAnalyzer

/-- Python regex word character `\w` (ASCII): `[a-zA-Z0-9_]`. -/
def isWordChar (c : Char) : Bool :=
  c.isAlpha || c.isDigit || c == '_'

/-- Python regex whitespace `\s` (ASCII): space, tab, newline, CR, VT, FF. -/
def isSpacePy (c : Char) : Bool :=
  c == ' ' || c == '\t' || c == '\n' || c == '\r' || c == '\x0b' || c == '\x0c'

/-- `true` when the character before position `i` is absent or a non-word
character; together with a word character at `i` this is the regex word
boundary `\b` in front of a literal. -/
def prevNonWord (cs : List Char) (i : Nat) : Bool :=
  match i with
  | 0 => true
  | j + 1 =>
    match cs.get? j with
    | some c => !isWordChar c
    | none => true

/-- `true` when the character at position `i` is absent or a non-word
character; after a literal ending in a word character this is the regex word
boundary `\b`. -/
def nextNonWord (cs : List Char) (i : Nat) : Bool :=
  match cs.get? i with
  | some c => !isWordChar c
  | none => true

/-- Case-insensitive literal match at position `i` (Python `re.I`). -/
def matchLit : List Char → List Char → Nat → Bool
  | [], _, _ => true
  | l :: ls, cs, i =>
    match cs.get? i with
    | some c => (c.toLower == l.toLower) && matchLit ls cs (i + 1)
    | none => false

/-- Length of the maximal run of characters satisfying `p` starting at `i`:
the match length of a greedy `p*` (or `p+` when positive). -/
def runLen (p : Char → Bool) (cs : List Char) (i : Nat) : Nat :=
  ((cs.drop i).takeWhile p).length

/-- Greedy `(?:\s+\w+){0,n}` starting at position `p`: repeatedly consume a
nonempty whitespace run followed by a nonempty word-character run, at most
`n` times, returning the end position. -/
def wordGroups (cs : List Char) : Nat → Nat → Nat
  | p, 0 => p
  | p, n + 1 =>
    let w := runLen isSpacePy cs p
    if w = 0 then p
    else
      let q := runLen isWordChar cs (p + w)
      if q = 0 then p else wordGroups cs (p + w + q) n

/-- `_TO_INF_RE = \bto\s+[a-zA-Z]+(?:\s+\w+){0,5}` (re.I): match attempt at
position `i`, returning the end offset on success. -/
def toInfMatchAt (cs : List Char) (i : Nat) : Option Nat :=
  if prevNonWord cs i && matchLit "to".data cs i then
    let w := runLen isSpacePy cs (i + 2)
    if w = 0 then none
    else
      let a := runLen Char.isAlpha cs (i + 2 + w)
      if a = 0 then none else some (wordGroups cs (i + 2 + w + a) 5)
  else none

/-- The preposition alternation of `_PP_RE`, in source order. -/
def preps : List (List Char) :=
  ["of", "in", "on", "at", "for", "to", "with", "from", "about", "over",
   "under", "into", "onto", "through", "without", "within", "between",
   "among"].map String.data

/-- The part `\s+\w+(?:\s+\w+){0,3}\b` of `_PP_RE` after the preposition,
starting at position `p`.  The trailing `\b` always holds after a maximal
`\w+` run. -/
def ppTail (cs : List Char) (p : Nat) : Option Nat :=
  let w := runLen isSpacePy cs p
  if w = 0 then none
  else
    let q := runLen isWordChar cs (p + w)
    if q = 0 then none else some (wordGroups cs (p + w + q) 3)

/-- `_PP_RE = \b(of|in|...|among)\s+\w+(?:\s+\w+){0,3}\b` (re.I): match
attempt at position `i`.  Alternatives are tried in source order; an
alternative whose continuation fails backtracks to the next one. -/
def ppMatchAt (cs : List Char) (i : Nat) : Option Nat :=
  if prevNonWord cs i then
    preps.findSome? fun w =>
      if matchLit w cs i then ppTail cs (i + w.length) else none
  else none

/-- The relative-pronoun alternation `(?:which|who(?:m)?|whose|that)` of
`_REL_CLAUSE_RE` with the greedy optional `m` expanded, in backtracking
order. -/
def relPronouns : List (List Char) :=
  ["which", "whom", "who", "whose", "that"].map String.data

/-- The `\b(?:which|who(?:m)?|whose|that)\b` part of `_REL_CLAUSE_RE` at
position `j`: an alternative matches when its literal matches and a word
boundary follows. -/
def pronMatch (cs : List Char) (j : Nat) : Option Nat :=
  if prevNonWord cs j then
    relPronouns.findSome? fun w =>
      if matchLit w cs j && nextNonWord cs (j + w.length) then
        some (j + w.length)
      else none
  else none

/-- The negated character class `[^.?!,;]` ending clause patterns. -/
def notClausePunct (c : Char) : Bool :=
  !(c == '.' || c == '?' || c == '!' || c == ',' || c == ';')

/-- The `(?:,?\s*)` prefix of `_REL_CLAUSE_RE` at position `i`: the greedy
`,?` must consume a present comma (retrying without it cannot succeed, as
the pronoun would then have to match the comma itself), and only the maximal
`\s*` run can be followed by a word boundary and a pronoun letter. -/
def relScanStart (cs : List Char) (i : Nat) : Nat :=
  let j := if cs.get? i == some ',' then i + 1 else i
  j + runLen isSpacePy cs j

/-- `_REL_CLAUSE_RE = (?:,?\s*)\b(?:which|who(?:m)?|whose|that)\b[^.?!,;]*`
(re.I): match attempt at position `i`. -/
def relMatchAt (cs : List Char) (i : Nat) : Option Nat :=
  match pronMatch cs (relScanStart cs i) with
  | some p => some (p + runLen notClausePunct cs p)
  | none => none

/-- The subordinating-conjunction alternation of `_ADV_CONJ_RE`, in source
order. -/
def advConjs : List (List Char) :=
  ["because", "when", "while", "although", "though", "since", "as", "if",
   "unless", "until", "once", "after", "before", "whereas", "where",
   "so that", "in order that"].map String.data

/-- The word `w` occurs at position `i`: a word boundary precedes `i`, the
literal matches case-insensitively, and a word boundary follows it.  An
accepted span "begins with the word `w`" when this holds at its start. -/
def beginsWithWord (w : List Char) (cs : List Char) (i : Nat) : Bool :=
  prevNonWord cs i && matchLit w cs i && nextNonWord cs (i + w.length)

/-- `_ADV_CONJ_RE = \b(?:because|...|in order that)\b[^.?!,;]*` (re.I):
match attempt at position `i`. -/
def advMatchAt (cs : List Char) (i : Nat) : Option Nat :=
  if prevNonWord cs i then
    match advConjs.findSome? (fun w =>
        if matchLit w cs i && nextNonWord cs (i + w.length) then
          some (i + w.length)
        else none) with
    | some p => some (p + runLen notClausePunct cs p)
    | none => none
  else none

/-- One scanning step list of Python `re.finditer`: try the matcher at each
position from `i` left to right; on a match, emit `(start, end)` and resume
at the match end (or the next position for an empty match, as Python does).
`fuel` bounds the recursion; `finditer` supplies enough for the whole
text. -/
def finditerAux (m : List Char → Nat → Option Nat) (cs : List Char) :
    Nat → Nat → List (Nat × Nat)
  | _, 0 => []
  | i, fuel + 1 =>
    if i < cs.length then
      match m cs i with
      | some e => (i, e) :: finditerAux m cs (if i < e then e else i + 1) fuel
      | none => finditerAux m cs (i + 1) fuel
    else []

/-- Python `re.finditer`: all non-overlapping matches, leftmost first. -/
def finditer (m : List Char → Nat → Option Nat) (cs : List Char) :
    List (Nat × Nat) :=
  finditerAux m cs 0 (cs.length + 1)

/-- `Span = Tuple[int, int, str]`: `(start_char, end_char, type)`. -/
abbrev Span := Nat × Nat × String

/-- `CLAUSE_TYPES = {"noun_clause", "adj_clause", "adv_clause"}`. -/
def clauseTypes : List String := ["noun_clause", "adj_clause", "adv_clause"]

/-- `NONFINITE_TYPES = {"to_inf", "participle"}`. -/
def nonfiniteTypes : List String := ["to_inf", "participle"]

/-- `PHRASE_TYPES = {"pp", "short_phrase"}` (declared in the source; not
consulted by `_priority` or `_apply_brackets`, which treat any non-clause,
non-nonfinite type as a phrase). -/
def phraseTypes : List String := ["pp", "short_phrase"]

/-- `_priority`: nonfinite 3 > clause 2 > everything else 1. -/
def priority (t : String) : Nat :=
  if t ∈ nonfiniteTypes then 3 else if t ∈ clauseTypes then 2 else 1

/-- The Python sort key `(s[0], -(s[1] - s[0]), -_priority(s[2]))`; the
middle component is `Int`-valued because Python computes it with genuine
integer subtraction even on malformed spans. -/
def spanKey (s : Span) : Nat × Int × Int :=
  (s.1, (s.1 : Int) - (s.2.1 : Int), -(priority s.2.2 : Int))

/-- Strict lexicographic order on span sort keys. -/
def keyLT (a b : Span) : Bool :=
  let ka := spanKey a
  let kb := spanKey b
  decide (ka.1 < kb.1 ∨ (ka.1 = kb.1 ∧
    (ka.2.1 < kb.2.1 ∨ (ka.2.1 = kb.2.1 ∧ ka.2.2 < kb.2.2))))

/-- Stable insertion of a span into a key-sorted list: the new element goes
after all elements with an equal key, matching Python's stable `sorted`. -/
def insertSorted (x : Span) : List Span → List Span
  | [] => [x]
  | y :: ys => if keyLT x y then x :: y :: ys else y :: insertSorted x ys

/-- `sorted(spans, key=lambda s: (s[0], -(s[1]-s[0]), -_priority(s[2])))`:
a stable sort by `spanKey` (stable sorts by the same key agree, so insertion
sort reproduces Python's Timsort output). -/
def sortSpans (l : List Span) : List Span :=
  l.foldl (fun acc x => insertSorted x acc) []

/-- One iteration of the `_flatten_spans` sweep, with the accumulator kept
reversed so that its head is Python's `out[-1]`. -/
def flattenStep (out : List Span) (s : Span) : List Span :=
  match out with
  | [] => [s]
  | last :: rest =>
    if s.1 < last.2.1 ∧ last.1 < s.2.1 then
      if priority last.2.2 < priority s.2.2 then s :: rest else last :: rest
    else s :: last :: rest

/-- `_flatten_spans`: sort by `(start asc, length desc, priority desc)`, then
sweep left to right keeping, on overlap with the last accepted span, only the
strictly higher-priority one. -/
def flattenSpans (spans : List Span) : List Span :=
  ((sortSpans spans).foldl flattenStep []).reverse

/-- Bracket pair for a span type in `_apply_brackets`: clause types get
square brackets, nonfinite types get braces, everything else parentheses. -/
def bracketChars (t : String) : Char × Char :=
  if t ∈ clauseTypes then ('[', ']')
  else if t ∈ nonfiniteTypes then ('\x7b', '\x7d')
  else ('(', ')')

/-- The `inserts` list built by `_apply_brackets`: for each span, first the
closing bracket at `end`, then the opening bracket at `start`. -/
def insertEvents (spans : List Span) : List (Nat × Char) :=
  spans.foldl (fun acc s =>
    let lr := bracketChars s.2.2
    acc ++ [(s.2.1, lr.2), (s.1, lr.1)]) []

/-- Descending comparison used by `inserts.sort(reverse=True)`: Python
orders the `(int, str)` tuples lexicographically, characters by code
point. -/
def eventGT (a b : Nat × Char) : Bool :=
  decide (b.1 < a.1 ∨ (b.1 = a.1 ∧ b.2 < a.2))

/-- Stable insertion for the descending event sort. -/
def insertEv (x : Nat × Char) : List (Nat × Char) → List (Nat × Char)
  | [] => [x]
  | y :: ys => if eventGT x y then x :: y :: ys else y :: insertEv x ys

/-- `inserts.sort(reverse=True)`. -/
def sortEvents (l : List (Nat × Char)) : List (Nat × Char) :=
  l.foldl (fun acc x => insertEv x acc) []

/-- `out[idx:idx] = [ch]` preceded by the defensive clamping of `idx` to
`[0, len(out)]` (the lower clamp is vacuous over `Nat`). -/
def pyInsertAt (out : List Char) (idx : Nat) (ch : Char) : List Char :=
  let i := if out.length < idx then out.length else idx
  out.take i ++ ch :: out.drop i

/-- `_apply_brackets`: build the two insertion events per span, sort them in
descending `(offset, char)` order, and insert back to front. -/
def applyBrackets (cs : List Char) (spans : List Span) : List Char :=
  (sortEvents (insertEvents spans)).foldl (fun out e => pyInsertAt out e.1 e.2) cs

/-- The `to_inf` pass of `_analyze_fallback`. -/
def toInfSpans (cs : List Char) : List Span :=
  (finditer toInfMatchAt cs).map fun p => (p.1, p.2, "to_inf")

/-- The `pp` pass of `_analyze_fallback`. -/
def ppSpans (cs : List Char) : List Span :=
  (finditer ppMatchAt cs).map fun p => (p.1, p.2, "pp")

/-- The loop body of the trimming loop, with `fuel` the structural recursion
measure; `trimStart?` supplies `fuel = e - s`, which is exactly the maximal
number of remaining iterations, so the fuel never runs out while `s < e`. -/
def trimStartAux (cs : List Char) (e : Nat) : Nat → Nat → Option Nat
  | 0, s => some s
  | fuel + 1, s =>
    if s < e then
      match cs.get? s with
      | none => none
      | some c =>
        if c == ',' || c == ' ' then trimStartAux cs e fuel (s + 1)
        else some s
    else some s

/-- The trimming loop `while s < e and text[s] in {",", " "}: s += 1` of the
relative-clause pass.  `text[s]` raises `IndexError` when `s ≥ len(text)`,
modelled as `none`. -/
def trimStart? (cs : List Char) (s e : Nat) : Option Nat :=
  trimStartAux cs e (e - s) s

/-- The `adj_clause` pass of `_analyze_fallback`: each raw regex match is
trimmed of leading commas/spaces and kept when at least 5 characters long. -/
def relSpans? (cs : List Char) : Option (List Span) :=
  (finditer relMatchAt cs).foldr
    (fun p acc? => do
      let acc ← acc?
      let s2 ← trimStart? cs p.1 p.2
      pure (if 5 ≤ p.2 - s2 then (s2, p.2, "adj_clause") :: acc else acc))
    (some [])

/-- The `adv_clause` pass of `_analyze_fallback`: matches of at least 5
characters are kept. -/
def advSpans (cs : List Char) : List Span :=
  (finditer advMatchAt cs).filterMap fun p =>
    if 5 ≤ p.2 - p.1 then some (p.1, p.2, "adv_clause") else none

/-- `_analyze_fallback`: the four regex passes in source order, then
`_flatten_spans`. -/
def analyzeFallback? (cs : List Char) : Option (List Span) :=
  (relSpans? cs).map fun rel =>
    flattenSpans (toInfSpans cs ++ ppSpans cs ++ rel ++ advSpans cs)

/-- The `AnalysisResult` dict: keys `text`, `analyzed_text`, `spans`,
`legend`.  Spans are kept as `(start, end, type)` triples, carrying exactly
the fields of the `{"start": s, "end": e, "type": t}` dicts the source
emits. -/
structure AnalysisResult where
  text : List Char
  analyzed_text : List Char
  spans : List Span
  legend : List (String × String)
deriving DecidableEq

/-- The legend literal of the empty/whitespace-input branch of
`analyze_structure`. -/
def legendEmptyCase : List (String × String) :=
  [("[]", "clauses"), ("()", "phrases"), ("\x7b\x7d", "non-finite")]

/-- The legend literal of the main branch of `analyze_structure`. -/
def legendMain : List (String × String) :=
  [("[]", "clauses (noun/adj/adv)"),
   ("()", "short phrases (PP etc.)"),
   ("\x7b\x7d", "non-finite (to-inf/participle)")]

/-- Python `str.strip()` with the default (whitespace) separator set. -/
def pyStrip (cs : List Char) : List Char :=
  ((cs.dropWhile isSpacePy).reverse.dropWhile isSpacePy).reverse

/-- `analyze_structure` in the fallback configuration (`_NLP = None`):
empty or whitespace-only input short-circuits; otherwise the fallback
extractor's spans are materialized with `_apply_brackets`. -/
def analyzeStructure? (cs : List Char) : Option AnalysisResult :=
  if cs.isEmpty || (pyStrip cs).isEmpty then
    some ⟨cs, cs, [], legendEmptyCase⟩
  else
    (analyzeFallback? cs).map fun spans =>
      ⟨cs, applyBrackets cs spans, spans, legendMain⟩

/-! ### Offset bounds of the regex matchers -/

theorem runLen_le {p : Char → Bool} {cs : List Char} {i : Nat}
    (h : i ≤ cs.length) : i + runLen p cs i ≤ cs.length := by
  have h1 : ((cs.drop i).takeWhile p).length ≤ (cs.drop i).length :=
    (List.takeWhile_sublist p).length_le
  rw [List.length_drop] at h1
  unfold runLen
  omega

theorem matchLit_le {cs : List Char} :
    ∀ (w : List Char) (i : Nat), matchLit w cs i = true → 0 < w.length →
      i + w.length ≤ cs.length := by
  intro w
  induction w with
  | nil => intro i _ h2; simp at h2
  | cons l ls ih =>
    intro i h _
    unfold matchLit at h
    cases hg : cs.get? i with
    | none => rw [hg] at h; simp at h
    | some c =>
      rw [hg] at h
      simp only [Bool.and_eq_true] at h
      obtain ⟨hi, -⟩ := List.get?_eq_some.mp hg
      cases ls with
      | nil => simpa using hi
      | cons l2 ls2 =>
        have h2 := ih (i + 1) h.2 (by simp)
        simp only [List.length_cons] at *
        omega

theorem wordGroups_ge (cs : List Char) :
    ∀ (n p : Nat), p ≤ wordGroups cs p n := by
  intro n
  induction n with
  | zero => intro p; simp [wordGroups]
  | succ n ih =>
    intro p
    unfold wordGroups
    dsimp only
    split
    · exact Nat.le_refl p
    · split
      · exact Nat.le_refl p
      · exact Nat.le_trans (by omega)
          (ih (p + runLen isSpacePy cs p +
            runLen isWordChar cs (p + runLen isSpacePy cs p)))

theorem wordGroups_le {cs : List Char} :
    ∀ (n p : Nat), p ≤ cs.length → wordGroups cs p n ≤ cs.length := by
  intro n
  induction n with
  | zero => intro p hp; simpa [wordGroups] using hp
  | succ n ih =>
    intro p hp
    unfold wordGroups
    dsimp only
    split
    · exact hp
    · split
      · exact hp
      · have h1 : p + runLen isSpacePy cs p ≤ cs.length := runLen_le hp
        have h2 : p + runLen isSpacePy cs p +
            runLen isWordChar cs (p + runLen isSpacePy cs p) ≤ cs.length :=
          runLen_le h1
        exact ih _ h2

theorem toInfMatchAt_bounds {cs : List Char} {i e : Nat}
    (h : toInfMatchAt cs i = some e) : i < e ∧ e ≤ cs.length := by
  unfold toInfMatchAt at h
  split at h
  case isTrue hc =>
    simp only [Bool.and_eq_true] at hc
    have hto : i + 2 ≤ cs.length := by
      have := matchLit_le "to".data i hc.2 (by simp)
      simpa using this
    dsimp only at h
    split at h
    · exact absurd h (by simp)
    case isFalse hw =>
      split at h
      · exact absurd h (by simp)
      case isFalse ha =>
        have h1 : i + 2 + runLen isSpacePy cs (i + 2) ≤ cs.length :=
          runLen_le hto
        have h2 : i + 2 + runLen isSpacePy cs (i + 2) +
            runLen Char.isAlpha cs (i + 2 + runLen isSpacePy cs (i + 2)) ≤
              cs.length := runLen_le h1
        have hge := wordGroups_ge cs 5 (i + 2 + runLen isSpacePy cs (i + 2) +
          runLen Char.isAlpha cs (i + 2 + runLen isSpacePy cs (i + 2)))
        have hle := wordGroups_le 5 _ h2
        simp only [Option.some.injEq] at h
        omega
  case isFalse => exact absurd h (by simp)

theorem ppTail_bounds {cs : List Char} {p e : Nat}
    (hp : p ≤ cs.length) (h : ppTail cs p = some e) :
    p < e ∧ e ≤ cs.length := by
  unfold ppTail at h
  dsimp only at h
  split at h
  · exact absurd h (by simp)
  case isFalse hw =>
    split at h
    · exact absurd h (by simp)
    case isFalse hq =>
      have h1 : p + runLen isSpacePy cs p ≤ cs.length := runLen_le hp
      have h2 : p + runLen isSpacePy cs p +
          runLen isWordChar cs (p + runLen isSpacePy cs p) ≤ cs.length :=
        runLen_le h1
      have hge := wordGroups_ge cs 3 (p + runLen isSpacePy cs p +
        runLen isWordChar cs (p + runLen isSpacePy cs p))
      have hle := wordGroups_le 3 _ h2
      simp only [Option.some.injEq] at h
      omega

theorem ppMatchAt_bounds {cs : List Char} {i e : Nat}
    (h : ppMatchAt cs i = some e) : i < e ∧ e ≤ cs.length := by
  unfold ppMatchAt at h
  split at h
  · obtain ⟨w, hw, hfw⟩ := List.exists_of_findSome?_eq_some h
    split at hfw
    case isTrue hm =>
      have hwlen : 0 < w.length := by
        have hall : ∀ w ∈ preps, 0 < w.length := by decide
        exact hall w hw
      have hle := matchLit_le w i hm hwlen
      have := ppTail_bounds (by omega) hfw
      omega
    case isFalse => exact absurd hfw (by simp)
  · exact absurd h (by simp)

theorem pronMatch_bounds {cs : List Char} {j p : Nat}
    (h : pronMatch cs j = some p) : j < p ∧ p ≤ cs.length := by
  unfold pronMatch at h
  split at h
  · obtain ⟨w, hw, hfw⟩ := List.exists_of_findSome?_eq_some h
    split at hfw
    case isTrue hm =>
      simp only [Bool.and_eq_true] at hm
      have hwlen : 0 < w.length := by
        have hall : ∀ w ∈ relPronouns, 0 < w.length := by decide
        exact hall w hw
      have hle := matchLit_le w j hm.1 hwlen
      simp only [Option.some.injEq] at hfw
      omega
    case isFalse => exact absurd hfw (by simp)
  · exact absurd h (by simp)

theorem le_relScanStart (cs : List Char) (i : Nat) : i ≤ relScanStart cs i := by
  unfold relScanStart
  dsimp only
  split <;> omega

theorem relMatchAt_bounds {cs : List Char} {i e : Nat}
    (h : relMatchAt cs i = some e) : i < e ∧ e ≤ cs.length := by
  unfold relMatchAt at h
  split at h
  case h_1 p hp =>
    have hb := pronMatch_bounds hp
    have hr := runLen_le (p := notClausePunct) hb.2
    have hs := le_relScanStart cs i
    simp only [Option.some.injEq] at h
    omega
  case h_2 => exact absurd h (by simp)

theorem advMatchAt_spec {cs : List Char} {i e : Nat}
    (h : advMatchAt cs i = some e) :
    i < e ∧ e ≤ cs.length ∧ ∃ w ∈ advConjs, beginsWithWord w cs i = true := by
  unfold advMatchAt at h
  split at h
  case isTrue hprev =>
    split at h
    case h_1 p hp =>
      obtain ⟨w, hw, hfw⟩ := List.exists_of_findSome?_eq_some hp
      split at hfw
      case isTrue hm =>
        simp only [Bool.and_eq_true] at hm
        have hwlen : 0 < w.length := by
          have hall : ∀ w ∈ advConjs, 0 < w.length := by decide
          exact hall w hw
        have hle := matchLit_le w i hm.1 hwlen
        simp only [Option.some.injEq] at hfw
        have hr := runLen_le (p := notClausePunct) (i := p)
          (show p ≤ cs.length by omega)
        simp only [Option.some.injEq] at h
        refine ⟨by omega, by omega, w, hw, ?_⟩
        unfold beginsWithWord
        simp [hprev, hm.1, hm.2]
      case isFalse => exact absurd hfw (by simp)
    case h_2 => exact absurd h (by simp)
  case isFalse => exact absurd h (by simp)

/-! ### The extractor passes: every emitted span is well formed -/

theorem finditerAux_mem {m : List Char → Nat → Option Nat} {cs : List Char} :
    ∀ (fuel i : Nat) (q : Nat × Nat), q ∈ finditerAux m cs i fuel →
      m cs q.1 = some q.2 := by
  intro fuel
  induction fuel with
  | zero => intro i q hq; simp [finditerAux] at hq
  | succ fuel ih =>
    intro i q hq
    unfold finditerAux at hq
    split at hq
    · cases hm : m cs i with
      | some e =>
        rw [hm] at hq
        rcases List.mem_cons.mp hq with h1 | h2
        · rw [h1]; exact hm
        · exact ih _ q h2
      | none =>
        rw [hm] at hq
        exact ih _ q hq
    · simp at hq

theorem finditer_mem {m : List Char → Nat → Option Nat} {cs : List Char}
    {q : Nat × Nat} (hq : q ∈ finditer m cs) : m cs q.1 = some q.2 :=
  finditerAux_mem _ _ q hq

theorem trimStartAux_isSome {cs : List Char} {e : Nat} (he : e ≤ cs.length) :
    ∀ (fuel s : Nat), s ≤ e →
      ∃ k, trimStartAux cs e fuel s = some k ∧ s ≤ k ∧ k ≤ e := by
  intro fuel
  induction fuel with
  | zero =>
    intro s hse
    exact ⟨s, rfl, Nat.le_refl s, hse⟩
  | succ fuel ih =>
    intro s hse
    unfold trimStartAux
    split
    case isTrue h =>
      cases hg : cs.get? s with
      | none => exact absurd (List.get?_eq_none.mp hg) (by omega)
      | some c =>
        dsimp only
        by_cases hc : (c == ',' || c == ' ') = true
        · rw [if_pos hc]
          obtain ⟨k, hk, h1, h2⟩ := ih (s + 1) (by omega)
          exact ⟨k, hk, by omega, h2⟩
        · rw [if_neg hc]
          exact ⟨s, rfl, Nat.le_refl s, hse⟩
    case isFalse h =>
      exact ⟨s, rfl, Nat.le_refl s, hse⟩

theorem trimStart?_isSome {cs : List Char} {s e : Nat} (he : e ≤ cs.length)
    (hse : s ≤ e) : ∃ k, trimStart? cs s e = some k ∧ s ≤ k ∧ k ≤ e :=
  trimStartAux_isSome he (e - s) s hse

theorem relSpans?_spec (cs : List Char) :
    ∃ l, relSpans? cs = some l ∧ ∀ sp ∈ l,
      sp.2.2 = "adj_clause" ∧ sp.1 < sp.2.1 ∧ sp.2.1 ≤ cs.length := by
  unfold relSpans?
  have hall : ∀ q ∈ finditer relMatchAt cs, relMatchAt cs q.1 = some q.2 :=
    fun q hq => finditer_mem hq
  revert hall
  generalize finditer relMatchAt cs = L
  intro hall
  induction L with
  | nil => exact ⟨[], rfl, by simp⟩
  | cons q Q ih =>
    obtain ⟨l, hl, hprop⟩ := ih fun q hq => hall q (List.mem_cons_of_mem _ hq)
    have hq := hall q (List.mem_cons_self _ _)
    have hb := relMatchAt_bounds hq
    obtain ⟨k, hk, hsk, hke⟩ :=
      trimStart?_isSome (s := q.1) (e := q.2) hb.2 (by omega)
    rw [List.foldr_cons, hl]
    simp only [Option.bind_eq_bind, Option.some_bind, hk]
    by_cases h5 : 5 ≤ q.2 - k
    · rw [if_pos h5]
      refine ⟨_, rfl, ?_⟩
      intro sp hsp
      rcases List.mem_cons.mp hsp with h1 | h2
      · rw [h1]
        exact ⟨rfl, show k < q.2 by omega, hb.2⟩
      · exact hprop sp h2
    · rw [if_neg h5]
      exact ⟨l, rfl, hprop⟩

theorem toInfSpans_spec {cs : List Char} :
    ∀ sp ∈ toInfSpans cs,
      sp.2.2 = "to_inf" ∧ sp.1 < sp.2.1 ∧ sp.2.1 ≤ cs.length := by
  intro sp hsp
  obtain ⟨q, hq, hmap⟩ := List.mem_map.mp hsp
  have hb := toInfMatchAt_bounds (finditer_mem hq)
  rw [← hmap]
  exact ⟨rfl, hb.1, hb.2⟩

theorem ppSpans_spec {cs : List Char} :
    ∀ sp ∈ ppSpans cs,
      sp.2.2 = "pp" ∧ sp.1 < sp.2.1 ∧ sp.2.1 ≤ cs.length := by
  intro sp hsp
  obtain ⟨q, hq, hmap⟩ := List.mem_map.mp hsp
  have hb := ppMatchAt_bounds (finditer_mem hq)
  rw [← hmap]
  exact ⟨rfl, hb.1, hb.2⟩

theorem advSpans_spec {cs : List Char} :
    ∀ sp ∈ advSpans cs,
      sp.2.2 = "adv_clause" ∧ sp.1 < sp.2.1 ∧ sp.2.1 ≤ cs.length ∧
        ∃ w ∈ advConjs, beginsWithWord w cs sp.1 = true := by
  intro sp hsp
  obtain ⟨q, hq, hf⟩ := List.mem_filterMap.mp hsp
  have hs := advMatchAt_spec (finditer_mem hq)
  split at hf
  case isTrue h5 =>
    simp only [Option.some.injEq] at hf
    rw [← hf]
    exact ⟨rfl, hs.1, hs.2.1, hs.2.2⟩
  case isFalse => exact absurd hf (by simp)

/-! ### The span sort -/

theorem keyLT_asymm {a b : Span} (h : keyLT a b = true) : keyLT b a = false := by
  simp only [keyLT, spanKey, decide_eq_true_eq] at h
  simp only [keyLT, spanKey, decide_eq_false_iff_not]
  omega

theorem keyLE_trans {a b c : Span} (hba : keyLT b a = false)
    (hcb : keyLT c b = false) : keyLT c a = false := by
  simp only [keyLT, spanKey, decide_eq_false_iff_not] at hba hcb ⊢
  omega

theorem keyLE_start {a b : Span} (h : keyLT b a = false) : a.1 ≤ b.1 := by
  simp only [keyLT, spanKey, decide_eq_false_iff_not] at h
  omega

theorem mem_insertSorted {a x : Span} :
    ∀ {l : List Span}, a ∈ insertSorted x l ↔ a = x ∨ a ∈ l := by
  intro l
  induction l with
  | nil => simp [insertSorted]
  | cons y ys ih =>
    unfold insertSorted
    split
    · simp [or_assoc, or_comm, or_left_comm]
    · simp only [List.mem_cons, ih]
      tauto

theorem mem_sortSpans_aux {a : Span} :
    ∀ (l acc : List Span),
      a ∈ l.foldl (fun acc x => insertSorted x acc) acc ↔ a ∈ acc ∨ a ∈ l := by
  intro l
  induction l with
  | nil => simp
  | cons x xs ih =>
    intro acc
    rw [List.foldl_cons, ih, mem_insertSorted]
    simp only [List.mem_cons]
    tauto

theorem mem_sortSpans {a : Span} {l : List Span} :
    a ∈ sortSpans l ↔ a ∈ l := by
  unfold sortSpans
  rw [mem_sortSpans_aux]
  simp

theorem head?_insertSorted (x : Span) (l : List Span) :
    (insertSorted x l).head? = some x ∨ (insertSorted x l).head? = l.head? := by
  cases l with
  | nil => left; rfl
  | cons y ys =>
    unfold insertSorted
    split
    · left; rfl
    · right; rfl

theorem chain'_insertSorted {x : Span} :
    ∀ {l : List Span}, List.Chain' (fun a b => keyLT b a = false) l →
      List.Chain' (fun a b => keyLT b a = false) (insertSorted x l) := by
  intro l
  induction l with
  | nil => intro _; simp [insertSorted]
  | cons y ys ih =>
    intro h
    unfold insertSorted
    split
    case isTrue hxy =>
      exact List.chain'_cons.mpr ⟨keyLT_asymm hxy, h⟩
    case isFalse hxy =>
      rw [List.chain'_cons']
      refine ⟨?_, ih h.tail⟩
      intro z hz
      rcases head?_insertSorted x ys with h1 | h1
      · rw [h1] at hz
        simp only [Option.mem_def, Option.some.injEq] at hz
        cases hz
        simpa using hxy
      · rw [h1] at hz
        rcases List.chain'_cons'.mp h with ⟨hy, -⟩
        exact hy z hz

theorem chain'_sortSpans (l : List Span) :
    List.Chain' (fun a b => keyLT b a = false) (sortSpans l) := by
  unfold sortSpans
  have h : ∀ (acc : List Span),
      List.Chain' (fun a b => keyLT b a = false) acc →
      List.Chain' (fun a b => keyLT b a = false)
        (l.foldl (fun acc x => insertSorted x acc) acc) := by
    induction l with
    | nil => intro acc hacc; exact hacc
    | cons x xs ih => intro acc hacc; exact ih _ (chain'_insertSorted hacc)
  exact h [] (by simp)

theorem chain'_rel_head :
    ∀ {t : List Span} {a b : Span},
      List.Chain' (fun x y => keyLT y x = false) (a :: t) → b ∈ t →
        keyLT b a = false := by
  intro t
  induction t with
  | nil => intro a b _ hb; simp at hb
  | cons c t ih =>
    intro a b hch hb
    rw [List.chain'_cons] at hch
    rcases List.mem_cons.mp hb with h1 | h2
    · rw [h1]; exact hch.1
    · exact keyLE_trans hch.1 (ih hch.2 h2)

theorem pairwise_sortSpans (l : List Span) :
    List.Pairwise (fun a b : Span => a.1 ≤ b.1) (sortSpans l) := by
  have hch := chain'_sortSpans l
  have hpw : List.Pairwise (fun a b => keyLT b a = false) (sortSpans l) := by
    revert hch
    generalize sortSpans l = L
    induction L with
    | nil => intro _; exact List.Pairwise.nil
    | cons a t ih =>
      intro h
      rw [List.pairwise_cons]
      exact ⟨fun b hb => chain'_rel_head h hb, ih h.tail⟩
  exact hpw.imp keyLE_start

/-! ### The resolver sweep: membership and the disjointness invariant -/

theorem flattenStep_nil (s : Span) : flattenStep [] s = [s] := rfl

theorem flattenStep_cons (last : Span) (rest : List Span) (s : Span) :
    flattenStep (last :: rest) s =
      if s.1 < last.2.1 ∧ last.1 < s.2.1 then
        if priority last.2.2 < priority s.2.2 then s :: rest
        else last :: rest
      else s :: last :: rest := rfl

theorem mem_flattenStep {acc : List Span} {s a : Span}
    (h : a ∈ flattenStep acc s) : a = s ∨ a ∈ acc := by
  cases acc with
  | nil =>
    rw [flattenStep_nil] at h
    simpa using h
  | cons last rest =>
    rw [flattenStep_cons] at h
    split_ifs at h
    · rcases List.mem_cons.mp h with h1 | h2
      · exact Or.inl h1
      · exact Or.inr (List.mem_cons_of_mem _ h2)
    · exact Or.inr h
    · rcases List.mem_cons.mp h with h1 | h2
      · exact Or.inl h1
      · exact Or.inr h2

theorem mem_foldl_flattenStep {a : Span} :
    ∀ (l acc : List Span), a ∈ l.foldl flattenStep acc → a ∈ acc ∨ a ∈ l := by
  intro l
  induction l with
  | nil => intro acc h; exact Or.inl h
  | cons s t ih =>
    intro acc h
    rw [List.foldl_cons] at h
    rcases ih _ h with h1 | h2
    · rcases mem_flattenStep h1 with h3 | h4
      · exact Or.inr (h3 ▸ List.mem_cons_self _ _)
      · exact Or.inl h4
    · exact Or.inr (List.mem_cons_of_mem _ h2)

theorem mem_flattenSpans {a : Span} {spans : List Span}
    (h : a ∈ flattenSpans spans) : a ∈ spans := by
  unfold flattenSpans at h
  rw [List.mem_reverse] at h
  rcases mem_foldl_flattenStep _ _ h with h1 | h2
  · simp at h1
  · exact mem_sortSpans.mp h2

theorem flatten_chain_aux :
    ∀ (l acc : List Span),
      (∀ s ∈ l, s.1 < s.2.1) →
      List.Pairwise (fun a b : Span => a.1 ≤ b.1) l →
      List.Chain' (fun a b : Span => b.2.1 ≤ a.1) acc →
      (∀ s ∈ l, ∀ a, acc.head? = some a → a.1 ≤ s.1) →
      List.Chain' (fun a b : Span => b.2.1 ≤ a.1) (l.foldl flattenStep acc) := by
  intro l
  induction l with
  | nil => intro acc _ _ hacc _; exact hacc
  | cons s t ih =>
    intro acc hwf hsort hacc hhead
    rw [List.foldl_cons]
    have hsorthead : ∀ u ∈ t, s.1 ≤ u.1 := (List.pairwise_cons.mp hsort).1
    apply ih
    · exact fun u hu => hwf u (List.mem_cons_of_mem _ hu)
    · exact (List.pairwise_cons.mp hsort).2
    · -- the new accumulator still satisfies the reversed chain invariant
      cases acc with
      | nil =>
        rw [flattenStep_nil]
        simp
      | cons last rest =>
        have hlast : last.1 ≤ s.1 := hhead s (List.mem_cons_self _ _) last rfl
        have hwfs : s.1 < s.2.1 := hwf s (List.mem_cons_self _ _)
        rw [flattenStep_cons]
        split_ifs with hov hpr
        · cases rest with
          | nil => simp
          | cons r rs =>
            rw [List.chain'_cons] at hacc ⊢
            exact ⟨by omega, hacc.2⟩
        · exact hacc
        · rw [List.chain'_cons]
          exact ⟨by omega, hacc⟩
    · -- heads of the new accumulator still start no later than pending spans
      intro u hu a ha
      have hus : s.1 ≤ u.1 := hsorthead u hu
      cases acc with
      | nil =>
        rw [flattenStep_nil] at ha
        simp only [List.head?_cons, Option.some.injEq] at ha
        subst ha
        omega
      | cons last rest =>
        have hlast : last.1 ≤ s.1 := hhead s (List.mem_cons_self _ _) last rfl
        rw [flattenStep_cons] at ha
        split_ifs at ha
        · simp only [List.head?_cons, Option.some.injEq] at ha
          subst ha
          omega
        · simp only [List.head?_cons, Option.some.injEq] at ha
          subst ha
          omega
        · simp only [List.head?_cons, Option.some.injEq] at ha
          subst ha
          omega

theorem flattenSpans_chain {spans : List Span}
    (hwf : ∀ s ∈ spans, s.1 < s.2.1) :
    List.Chain' (fun a b : Span => a.2.1 ≤ b.1) (flattenSpans spans) := by
  unfold flattenSpans
  rw [List.chain'_reverse]
  exact flatten_chain_aux (sortSpans spans) []
    (fun s hs => hwf s (mem_sortSpans.mp hs))
    (pairwise_sortSpans spans)
    (by simp)
    (by intro s _ a ha; simp at ha)

theorem chain_head_le :
    ∀ {t : List Span} {a : Span},
      (∀ s ∈ t, s.1 < s.2.1) →
      List.Chain' (fun x y : Span => x.2.1 ≤ y.1) (a :: t) →
      ∀ b ∈ t, a.2.1 ≤ b.1 := by
  intro t
  induction t with
  | nil => intro a _ _ b hb; simp at hb
  | cons c t ih =>
    intro a hwf hch b hb
    rw [List.chain'_cons] at hch
    rcases List.mem_cons.mp hb with h1 | h2
    · rw [h1]; exact hch.1
    · have hc := hwf c (List.mem_cons_self _ _)
      have hcb := ih (fun s hs => hwf s (List.mem_cons_of_mem _ hs)) hch.2 b h2
      omega

theorem flattenSpans_pairwise {spans : List Span}
    (hwf : ∀ s ∈ spans, s.1 < s.2.1) :
    List.Pairwise (fun a b : Span => a.2.1 ≤ b.1 ∧ a.1 < b.1)
      (flattenSpans spans) := by
  have hch := flattenSpans_chain hwf
  have hwf2 : ∀ s ∈ flattenSpans spans, s.1 < s.2.1 :=
    fun s hs => hwf s (mem_flattenSpans hs)
  revert hch hwf2
  generalize flattenSpans spans = L
  induction L with
  | nil => intro _ _; exact List.Pairwise.nil
  | cons a t ih =>
    intro hch hwf2
    rw [List.pairwise_cons]
    have ha := hwf2 a (List.mem_cons_self _ _)
    have hwft : ∀ s ∈ t, s.1 < s.2.1 :=
      fun s hs => hwf2 s (List.mem_cons_of_mem _ hs)
    refine ⟨fun b hb => ?_, ih hch.tail hwft⟩
    have := chain_head_le hwft hch b hb
    exact ⟨this, by omega⟩

/-! ### The materializer: each insertion event adds exactly one character -/

theorem length_pyInsertAt (out : List Char) (idx : Nat) (ch : Char) :
    (pyInsertAt out idx ch).length = out.length + 1 := by
  unfold pyInsertAt
  dsimp only
  split
  · rw [List.length_append, List.length_cons, List.length_take,
      List.length_drop]
    omega
  · rw [List.length_append, List.length_cons, List.length_take,
      List.length_drop]
    omega

theorem length_foldl_pyInsertAt :
    ∀ (evs : List (Nat × Char)) (out : List Char),
      (evs.foldl (fun o e => pyInsertAt o e.1 e.2) out).length =
        out.length + evs.length := by
  intro evs
  induction evs with
  | nil => intro out; simp
  | cons e t ih =>
    intro out
    rw [List.foldl_cons, ih, length_pyInsertAt, List.length_cons]
    omega

theorem length_insertEv (x : Nat × Char) :
    ∀ (l : List (Nat × Char)), (insertEv x l).length = l.length + 1 := by
  intro l
  induction l with
  | nil => rfl
  | cons y ys ih =>
    unfold insertEv
    split
    · simp
    · simp [ih]

theorem length_sortEvents_aux :
    ∀ (l acc : List (Nat × Char)),
      (l.foldl (fun acc x => insertEv x acc) acc).length =
        acc.length + l.length := by
  intro l
  induction l with
  | nil => intro acc; simp
  | cons x xs ih =>
    intro acc
    rw [List.foldl_cons, ih, length_insertEv, List.length_cons]
    omega

theorem length_sortEvents (l : List (Nat × Char)) :
    (sortEvents l).length = l.length := by
  unfold sortEvents
  rw [length_sortEvents_aux]
  simp

theorem length_insertEvents_aux :
    ∀ (spans : List Span) (acc : List (Nat × Char)),
      (spans.foldl (fun acc s =>
        let lr := bracketChars s.2.2
        acc ++ [(s.2.1, lr.2), (s.1, lr.1)]) acc).length =
      acc.length + 2 * spans.length := by
  intro spans
  induction spans with
  | nil => intro acc; simp
  | cons s t ih =>
    intro acc
    rw [List.foldl_cons, ih]
    simp only [List.length_append, List.length_cons]
    simp
    omega

theorem length_insertEvents (spans : List Span) :
    (insertEvents spans).length = 2 * spans.length := by
  unfold insertEvents
  rw [length_insertEvents_aux]
  simp

theorem length_applyBrackets (cs : List Char) (spans : List Span) :
    (applyBrackets cs spans).length = cs.length + 2 * spans.length := by
  unfold applyBrackets
  rw [length_foldl_pyInsertAt, length_sortEvents, length_insertEvents]

/-! ### The facade: the fallback extractor is total and well formed -/

theorem analyzeFallback?_spec (cs : List Char) :
    ∃ raw spans, analyzeFallback? cs = some spans ∧
      spans = flattenSpans raw ∧
      (∀ sp ∈ raw, sp.1 < sp.2.1 ∧ sp.2.1 ≤ cs.length) ∧
      (∀ sp ∈ raw, sp.2.2 = "adv_clause" →
        ∃ w ∈ advConjs, beginsWithWord w cs sp.1 = true) := by
  obtain ⟨rel, hrel, hrelp⟩ := relSpans?_spec cs
  refine ⟨toInfSpans cs ++ ppSpans cs ++ rel ++ advSpans cs, _, ?_, rfl, ?_, ?_⟩
  · unfold analyzeFallback?
    rw [hrel]
    rfl
  · intro sp hsp
    rcases List.mem_append.mp hsp with hsp | hadv
    · rcases List.mem_append.mp hsp with hsp | hr
      · rcases List.mem_append.mp hsp with hto | hpp
        · exact (toInfSpans_spec sp hto).2
        · exact (ppSpans_spec sp hpp).2
      · exact (hrelp sp hr).2
    · exact ⟨(advSpans_spec sp hadv).2.1, (advSpans_spec sp hadv).2.2.1⟩
  · intro sp hsp htype
    rcases List.mem_append.mp hsp with hsp | hadv
    · rcases List.mem_append.mp hsp with hsp | hr
      · rcases List.mem_append.mp hsp with hto | hpp
        · exact absurd ((toInfSpans_spec sp hto).1 ▸ htype) (by decide)
        · exact absurd ((ppSpans_spec sp hpp).1 ▸ htype) (by decide)
      · exact absurd ((hrelp sp hr).1 ▸ htype) (by decide)
    · exact (advSpans_spec sp hadv).2.2.2

theorem analyzeStructure?_total (cs : List Char) :
    ∃ r : AnalysisResult, analyzeStructure? cs = some r ∧ r.text = cs := by
  unfold analyzeStructure?
  split
  · exact ⟨_, rfl, rfl⟩
  · obtain ⟨raw, spans, hs, -, -, -⟩ := analyzeFallback?_spec cs
    rw [hs]
    exact ⟨_, rfl, rfl⟩

/-! ### Claim-level definitions -/

/-- Two spans are disjoint, or one is fully nested inside the other — the
non-crossing relation of the specification. -/
def NonCrossing (a b : Span) : Prop :=
  a.2.1 ≤ b.1 ∨ b.2.1 ≤ a.1 ∨
    (a.1 ≤ b.1 ∧ b.2.1 ≤ a.2.1) ∨ (b.1 ≤ a.1 ∧ a.2.1 ≤ b.2.1)

/-- Modelled from the spec: the closed set of subordinating conjunctions the
specification lists for `AdvClause` (15 items).  To be compared with
`advConjs`, taken from the source regex, which additionally contains `after`
and `before`. -/
def specAdvConjs : List (List Char) :=
  ["because", "when", "while", "although", "though", "since", "as", "if",
   "unless", "until", "once", "whereas", "where", "so that",
   "in order that"].map String.data

/-! ### The claims -/

/-- Claim C1: for every input string, `analyze_structure` terminates without
raising an exception (the checked model, in which the one indexing operation
that can raise returns `none`, always returns `some`) and the result is a
well-formed `AnalysisResult` carrying the four keys `text`, `analyzed_text`,
`spans` and `legend`, with `text` the original input. -/
theorem C1_analyze_total (cs : List Char) :
    ∃ r : AnalysisResult, analyzeStructure? cs = some r ∧ r.text = cs :=
  analyzeStructure?_total cs

/-- Claim C2: for every input string, the result of `analyze_structure`
satisfies `len(analyzed_text) = len(text) + 2 * len(spans)`: each accepted
span contributes exactly one opening and one closing bracket character. -/
theorem C2_length_invariant (cs : List Char) (r : AnalysisResult)
    (h : analyzeStructure? cs = some r) :
    r.analyzed_text.length = r.text.length + 2 * r.spans.length := by
  unfold analyzeStructure? at h
  split at h
  · simp only [Option.some.injEq] at h
    rw [← h]
    simp
  · cases hf : analyzeFallback? cs with
    | none => rw [hf] at h; simp at h
    | some spans =>
      rw [hf] at h
      simp only [Option.map_some', Option.some.injEq] at h
      rw [← h]
      simpa using length_applyBrackets cs spans

/-- Witness for C2, at the concrete input `"I want to go home."`. -/
theorem C2_length_invariant_witness :
    ∃ r : AnalysisResult,
      analyzeStructure? "I want to go home.".data = some r ∧
        r.analyzed_text.length = r.text.length + 2 * r.spans.length :=
  ⟨⟨"I want to go home.".data, "I want \x7bto go home\x7d.".data,
      [(7, 17, "to_inf")], legendMain⟩,
    by decide,
    C2_length_invariant "I want to go home.".data
      ⟨"I want to go home.".data, "I want \x7bto go home\x7d.".data,
        [(7, 17, "to_inf")], legendMain⟩ (by decide)⟩

/-- Claim C3: for every input list of spans (spans satisfy the data-model
invariant `start < end`), every pair of spans in the resolver's output is
disjoint or fully nested (never partially overlapping), and the span list
returned by `analyze_structure` is likewise pairwise non-crossing for every
input text. -/
theorem C3_noncrossing :
    (∀ spans : List Span, (∀ s ∈ spans, s.1 < s.2.1) →
      (flattenSpans spans).Pairwise NonCrossing) ∧
    ∀ (cs : List Char) (r : AnalysisResult), analyzeStructure? cs = some r →
      r.spans.Pairwise NonCrossing := by
  have key : ∀ spans : List Span, (∀ s ∈ spans, s.1 < s.2.1) →
      (flattenSpans spans).Pairwise NonCrossing := by
    intro spans hwf
    exact (flattenSpans_pairwise hwf).imp fun h => Or.inl h.1
  refine ⟨key, ?_⟩
  intro cs r h
  unfold analyzeStructure? at h
  split at h
  · simp only [Option.some.injEq] at h
    rw [← h]
    exact List.Pairwise.nil
  · obtain ⟨raw, spans, hs, heq, hwf, -⟩ := analyzeFallback?_spec cs
    rw [hs] at h
    simp only [Option.map_some', Option.some.injEq] at h
    rw [← h]
    show spans.Pairwise NonCrossing
    rw [heq]
    exact key raw fun s hs2 => (hwf s hs2).1

/-- Witness for C3, at a concrete overlapping pair. -/
theorem C3_witness :
    (flattenSpans [(0, 3, "pp"), (1, 4, "to_inf")]).Pairwise NonCrossing :=
  C3_noncrossing.1 [(0, 3, "pp"), (1, 4, "to_inf")] (by decide)

/-- Claim C4: on `"I want to go home."` the pattern pipeline returns exactly
one span, the `to_inf` span `(7, 17)` covering `"to go home"`, and the
text is materialized with braces; the `pp` pass did produce the fully
overlapping candidate `(7, 17)` for the same range, and it is absent from
the output because phrase priority 1 loses to nonfinite priority 3. -/
theorem C4_to_infinitive_priority :
    analyzeStructure? "I want to go home.".data =
      some ⟨"I want to go home.".data, "I want \x7bto go home\x7d.".data,
        [(7, 17, "to_inf")], legendMain⟩ ∧
    ("I want to go home.".data.take 17).drop 7 = "to go home".data ∧
    ppSpans "I want to go home.".data = [(7, 17, "pp")] :=
  ⟨rfl, rfl, rfl⟩

/-- Claim C5 (amended): on
`"The book which I bought yesterday is great."` the pattern extractor
produces an `adj_clause` span `(9, 42)` covering
`"which I bought yesterday is great"` — the leading space is trimmed, but
the regex runs to the next clause-ending punctuation, the sentence-final
period, so the span does not stop after `"yesterday"` — and materialization
yields `"The book [which I bought yesterday is great]."`. -/
theorem C5_relative_clause_scenario :
    analyzeStructure? "The book which I bought yesterday is great.".data =
      some ⟨"The book which I bought yesterday is great.".data,
        "The book [which I bought yesterday is great].".data,
        [(9, 42, "adj_clause")], legendMain⟩ ∧
    ("The book which I bought yesterday is great.".data.take 42).drop 9 =
      "which I bought yesterday is great".data :=
  ⟨by decide, rfl⟩

/-- Counterexample to C5 as stated: the span is `(9, 42)`, not the claimed
`(9, 33)` covering only `"which I bought yesterday"`, and the materialized
text differs from the claimed `"The book [which I bought yesterday] is
great."`. -/
theorem C5_counterexample :
    analyzeStructure? "The book which I bought yesterday is great.".data =
      some ⟨"The book which I bought yesterday is great.".data,
        "The book [which I bought yesterday is great].".data,
        [(9, 42, "adj_clause")], legendMain⟩ ∧
    ([((9 : Nat), (42 : Nat), ("adj_clause" : String))] ≠
      [((9 : Nat), (33 : Nat), ("adj_clause" : String))]) ∧
    "The book [which I bought yesterday is great].".data ≠
      "The book [which I bought yesterday] is great.".data :=
  ⟨by decide, by decide, by decide⟩

/-- Claim C6 (amended): `analyze_structure("")` and `analyze_structure("   ")`
return the input unchanged with an empty span list, but their legend is the
short literal `{"[]": "clauses", "()": "phrases", "{}": "non-finite"}` of the
empty-input branch, which differs from the legend returned for every
non-blank input. -/
theorem C6_empty_and_blank_input :
    analyzeStructure? "".data = some ⟨"".data, "".data, [], legendEmptyCase⟩ ∧
    analyzeStructure? "   ".data =
      some ⟨"   ".data, "   ".data, [], legendEmptyCase⟩ ∧
    ∀ (cs : List Char) (r : AnalysisResult),
      (cs.isEmpty || (pyStrip cs).isEmpty) = false →
      analyzeStructure? cs = some r → r.legend = legendMain := by
  refine ⟨rfl, rfl, ?_⟩
  intro cs r hc h
  unfold analyzeStructure? at h
  rw [if_neg (by simp [hc])] at h
  cases hf : analyzeFallback? cs with
  | none => rw [hf] at h; simp at h
  | some spans =>
    rw [hf] at h
    simp only [Option.map_some', Option.some.injEq] at h
    rw [← h]

/-- Counterexample to C6 as stated: the legend of the empty-input branch is
not the fixed legend `{"[]": "clauses (noun/adj/adv)", ...}` returned for
other inputs. -/
theorem C6_counterexample :
    analyzeStructure? "".data =
      some ⟨"".data, "".data, [], legendEmptyCase⟩ ∧
    legendEmptyCase ≠ legendMain :=
  ⟨rfl, by decide⟩

/-- Witness for C6, at the concrete non-blank input `"a"`. -/
theorem C6_witness :
    ∃ r : AnalysisResult, analyzeStructure? "a".data = some r ∧
      r.legend = legendMain :=
  ⟨_, rfl, C6_empty_and_blank_input.2.2 "a".data _ (by decide) rfl⟩

/-- Claim C7 (amended): the resolver neither drops nor clamps anything — its
output spans are all elements of its input, passed through unmodified (it
does not even receive the text, so it cannot clamp to its bounds) — and the
reason no malformed span appears in `analyze_structure`'s output is that
every span the pattern extractor produces already satisfies
`start < end ≤ len(text)`. -/
theorem C7_resolver_no_drop_no_clamp :
    (∀ spans : List Span, ∀ sp ∈ flattenSpans spans, sp ∈ spans) ∧
    ∀ (cs : List Char) (r : AnalysisResult), analyzeStructure? cs = some r →
      ∀ sp ∈ r.spans, sp.1 < sp.2.1 ∧ sp.2.1 ≤ cs.length := by
  refine ⟨fun spans sp h => mem_flattenSpans h, ?_⟩
  intro cs r h
  unfold analyzeStructure? at h
  split at h
  · simp only [Option.some.injEq] at h
    rw [← h]
    intro sp hsp
    simp at hsp
  · obtain ⟨raw, spans, hs, heq, hwf, -⟩ := analyzeFallback?_spec cs
    rw [hs] at h
    simp only [Option.map_some', Option.some.injEq] at h
    rw [← h]
    intro sp hsp
    replace hsp : sp ∈ spans := hsp
    rw [heq] at hsp
    exact hwf sp (mem_flattenSpans hsp)

/-- Counterexample to C7 as stated: a span with `start ≥ end` is not dropped
by the resolver; it survives to the output untouched. -/
theorem C7_counterexample :
    flattenSpans [(5, 3, "pp")] = [(5, 3, "pp")] ∧ ¬(5 : Nat) < 3 :=
  ⟨by decide, by decide⟩

/-- Witness for C7, applying the pass-through component at a concrete
resolver run. -/
theorem C7_witness :
    ((7, 17, "to_inf") : Span) ∈
      ([(7, 17, "to_inf"), (7, 17, "pp")] : List Span) :=
  C7_resolver_no_drop_no_clamp.1 [(7, 17, "to_inf"), (7, 17, "pp")]
    (7, 17, "to_inf") (by decide)

/-- Claim C8 (amended): when two insertion events fall at the identical
offset, `_apply_brackets` applies them in descending character-code order,
so the output shows them in ascending character-code order
(`( < ) < [ < ] < \x7b < \x7d`).  The closing bracket therefore precedes the
opening bracket only for the combinations `)[`, `)\x7b` and `]\x7b`; in the six
other combinations — including every same-group pair — the opening bracket
lands first, which for `[` after `\x7d`, `(` after `\x7d` and `(` after `]`
produces a crossing bracket sequence.  The nine evaluations below, one per
combination of closing group (first span) and opening group (second span)
meeting at offset 1 of `"ab"`, determine the behaviour completely. -/
theorem C8_same_offset_order :
    applyBrackets "ab".data [(0, 1, "adj_clause"), (1, 2, "adj_clause")] =
      "[a[]b]".data ∧
    applyBrackets "ab".data [(0, 1, "adj_clause"), (1, 2, "pp")] =
      "[a(]b)".data ∧
    applyBrackets "ab".data [(0, 1, "adj_clause"), (1, 2, "to_inf")] =
      "[a]\x7bb\x7d".data ∧
    applyBrackets "ab".data [(0, 1, "pp"), (1, 2, "adj_clause")] =
      "(a)[b]".data ∧
    applyBrackets "ab".data [(0, 1, "pp"), (1, 2, "pp")] =
      "(a()b)".data ∧
    applyBrackets "ab".data [(0, 1, "pp"), (1, 2, "to_inf")] =
      "(a)\x7bb\x7d".data ∧
    applyBrackets "ab".data [(0, 1, "to_inf"), (1, 2, "adj_clause")] =
      "\x7ba[\x7db]".data ∧
    applyBrackets "ab".data [(0, 1, "to_inf"), (1, 2, "pp")] =
      "\x7ba(\x7db)".data ∧
    applyBrackets "ab".data [(0, 1, "to_inf"), (1, 2, "to_inf")] =
      "\x7ba\x7b\x7db\x7d".data :=
  ⟨rfl, rfl, rfl, rfl, rfl, rfl, rfl, rfl, rfl⟩

/-- Counterexample to C8 as stated: with a nonfinite span closing at offset 1
and a clause span opening there, the opening `[` is placed before the closing
`\x7d`, producing the crossing sequence `"\x7ba[\x7db]"` instead of the properly
nested `"\x7ba\x7d[b]"`. -/
theorem C8_counterexample :
    applyBrackets "ab".data [(0, 1, "to_inf"), (1, 2, "adj_clause")] =
      "\x7ba[\x7db]".data ∧
    "\x7ba[\x7db]".data ≠ "\x7ba\x7d[b]".data :=
  ⟨rfl, by decide⟩

/-- Claim C9 (amended): every `adv_clause` span the pattern extractor emits
begins with a word of the conjunction alternation of the source regex —
which contains the spec's fifteen conjunctions plus `after` and `before`. -/
theorem C9_adv_begins_with_conjunction (cs : List Char) (spans : List Span)
    (h : analyzeFallback? cs = some spans) :
    ∀ sp ∈ spans, sp.2.2 = "adv_clause" →
      ∃ w ∈ advConjs, beginsWithWord w cs sp.1 = true := by
  obtain ⟨raw, spans2, hs, heq, -, hadv⟩ := analyzeFallback?_spec cs
  rw [hs] at h
  simp only [Option.some.injEq] at h
  subst h
  intro sp hsp htype
  rw [heq] at hsp
  exact hadv sp (mem_flattenSpans hsp) htype

/-- Counterexample to C9 as stated: `"He slept after dinner."` yields an
`adv_clause` span starting with `"after"`, a word outside the spec's
fifteen-conjunction set. -/
theorem C9_counterexample :
    analyzeFallback? "He slept after dinner.".data =
      some [(9, 21, "adv_clause")] ∧
    ("He slept after dinner.".data.take 14).drop 9 = "after".data ∧
    ∀ w ∈ specAdvConjs,
      beginsWithWord w "He slept after dinner.".data 9 = false :=
  ⟨rfl, rfl, by decide⟩

/-- Witness for C9, at the concrete input `"He slept after dinner."`. -/
theorem C9_witness :
    ∃ w ∈ advConjs,
      beginsWithWord w "He slept after dinner.".data 9 = true :=
  C9_adv_begins_with_conjunction "He slept after dinner.".data
    [(9, 21, "adv_clause")] rfl (9, 21, "adv_clause") (by decide) rfl

/-- Claim C10: for every input list of spans satisfying the data-model
invariant `start < end`, the resolver's output is pairwise disjoint (each
accepted span ends no later than the next begins) and sorted by start
strictly ascending — in particular no accepted span is nested inside
another, so the emitted bracket pairs never nest. -/
theorem C10_resolver_disjoint_sorted (spans : List Span)
    (hwf : ∀ s ∈ spans, s.1 < s.2.1) :
    (flattenSpans spans).Pairwise fun a b => a.2.1 ≤ b.1 ∧ a.1 < b.1 :=
  flattenSpans_pairwise hwf

/-- Witness for C10, at a concrete overlapping pair. -/
theorem C10_witness :
    (flattenSpans [(0, 3, "pp"), (2, 6, "to_inf")]).Pairwise
      (fun a b => a.2.1 ≤ b.1 ∧ a.1 < b.1) :=
  C10_resolver_disjoint_sorted [(0, 3, "pp"), (2, 6, "to_inf")] (by decide)

end StructureAnalyzer
